import Mathlib

/-!
Verification of the hybrid PoW/PoS consensus core (cpp-core): shallow
embedding of the hashing, proof-of-work, difficulty, Merkle-tree, UTXO and
validator-registry operations, with theorems settling the specified
properties. Machine integers are modeled as `Nat` with explicit reduction
modulo `2 ^ 32` / `2 ^ 64` where C++ unsigned arithmetic wraps; byte strings
are lists of naturals below 256.
-/

namespace Spec2Proof

/-- Byte strings (`std::vector<uint8_t>` / `std::string` used as raw bytes):
lists of naturals, each below 256. -/
abbrev Bytes := List Nat

/-- Word size of `uint32_t`. -/
def w32 : Nat := 4294967296

/-- Word size of `uint64_t`. -/
def w64 : Nat := 18446744073709551616

/-! ## SHA-256 (the cryptographic collaborator)

`crypto.cpp` delegates `SHA256::hash` to OpenSSL; the claims evaluate it at
concrete inputs, so the FIPS 180-4 compression function is embedded
executably here. -/

/-- Right rotation of a 32-bit word. -/
def rotr32 (n x : Nat) : Nat := ((x >>> n) ||| ((x <<< (32 - n)) % w32)) % w32

/-- SHA-256 small sigma 0. -/
def ssig0 (x : Nat) : Nat := (rotr32 7 x) ^^^ (rotr32 18 x) ^^^ (x >>> 3)

/-- SHA-256 small sigma 1. -/
def ssig1 (x : Nat) : Nat := (rotr32 17 x) ^^^ (rotr32 19 x) ^^^ (x >>> 10)

/-- SHA-256 big sigma 0. -/
def bsig0 (x : Nat) : Nat := (rotr32 2 x) ^^^ (rotr32 13 x) ^^^ (rotr32 22 x)

/-- SHA-256 big sigma 1. -/
def bsig1 (x : Nat) : Nat := (rotr32 6 x) ^^^ (rotr32 11 x) ^^^ (rotr32 25 x)

/-- SHA-256 round constants (decimal). -/
def shaK : List Nat :=
  [1116352408, 1899447441, 3049323471, 3921009573, 961987163,
   1508970993, 2453635748, 2870763221, 3624381080, 310598401,
   607225278, 1426881987, 1925078388, 2162078206, 2614888103,
   3248222580, 3835390401, 4022224774, 264347078, 604807628,
   770255983, 1249150122, 1555081692, 1996064986, 2554220882,
   2821834349, 2952996808, 3210313671, 3336571891, 3584528711,
   113926993, 338241895, 666307205, 773529912, 1294757372,
   1396182291, 1695183700, 1986661051, 2177026350, 2456956037,
   2730485921, 2820302411, 3259730800, 3345764771, 3516065817,
   3600352804, 4094571909, 275423344, 430227734, 506948616,
   659060556, 883997877, 958139571, 1322822218, 1537002063,
   1747873779, 1955562222, 2024104815, 2227730452, 2361852424,
   2428436474, 2756734187, 3204031479, 3329325298]

/-- SHA-256 initial hash state (decimal). -/
def shaInit : List Nat :=
  [1779033703, 3144134277, 1013904242, 2773480762,
   1359893119, 2600822924, 528734635, 1541459225]

/-- Group bytes into 32-bit big-endian words. -/
def bytesToWordsBE : Bytes → List Nat
  | b0 :: b1 :: b2 :: b3 :: rest =>
      (((b0 * 256 + b1) * 256 + b2) * 256 + b3) :: bytesToWordsBE rest
  | _ => []

/-- Extend a 16-word message schedule by `k` further words. -/
def extendSchedule : List Nat → Nat → List Nat
  | w, 0 => w
  | w, k + 1 =>
      let n := w.length
      extendSchedule
        (w ++ [(ssig1 (w.getD (n - 2) 0) + w.getD (n - 7) 0 +
                ssig0 (w.getD (n - 15) 0) + w.getD (n - 16) 0) % w32]) k

/-- Working state of the SHA-256 compression loop. -/
structure ShaState where
  a : Nat
  b : Nat
  c : Nat
  d : Nat
  e : Nat
  f : Nat
  g : Nat
  h : Nat

/-- One SHA-256 round, consuming a (round constant, schedule word) pair. -/
def shaRound (s : ShaState) (kw : Nat × Nat) : ShaState :=
  let ch := (s.e &&& s.f) ^^^ ((s.e ^^^ (w32 - 1)) &&& s.g)
  let maj := (s.a &&& s.b) ^^^ (s.a &&& s.c) ^^^ (s.b &&& s.c)
  let t1 := (s.h + bsig1 s.e + ch + kw.1 + kw.2) % w32
  let t2 := (bsig0 s.a + maj) % w32
  ⟨(t1 + t2) % w32, s.a, s.b, s.c, (s.d + t1) % w32, s.e, s.f, s.g⟩

/-- SHA-256 compression of one 64-byte block into the running 8-word state. -/
def shaCompress (hs : List Nat) (block : Bytes) : List Nat :=
  let w := extendSchedule (bytesToWordsBE block) 48
  let s0 : ShaState :=
    ⟨hs.getD 0 0, hs.getD 1 0, hs.getD 2 0, hs.getD 3 0,
     hs.getD 4 0, hs.getD 5 0, hs.getD 6 0, hs.getD 7 0⟩
  let s := (shaK.zip w).foldl shaRound s0
  [(hs.getD 0 0 + s.a) % w32, (hs.getD 1 0 + s.b) % w32,
   (hs.getD 2 0 + s.c) % w32, (hs.getD 3 0 + s.d) % w32,
   (hs.getD 4 0 + s.e) % w32, (hs.getD 5 0 + s.f) % w32,
   (hs.getD 6 0 + s.g) % w32, (hs.getD 7 0 + s.h) % w32]

/-- The `k`-byte big-endian encoding of a natural number. -/
def natToBytesBE : Nat → Nat → Bytes
  | 0, _ => []
  | k + 1, n => natToBytesBE k (n / 256) ++ [n % 256]

/-- SHA-256 padding: append `0x80`, zeros, and the 64-bit big-endian bit
length, reaching a multiple of 64 bytes. -/
def shaPad (msg : Bytes) : Bytes :=
  msg ++ [128] ++ List.replicate ((64 - ((msg.length + 9) % 64)) % 64) 0 ++
    natToBytesBE 8 (msg.length * 8)

/-- Split a byte string into 64-byte blocks; the fuel parameter bounds the
number of blocks and keeps the recursion structural. -/
def chunks64go : Nat → Bytes → List Bytes
  | 0, _ => []
  | fuel + 1, b => if b = [] then [] else b.take 64 :: chunks64go fuel (b.drop 64)

/-- Split a byte string into 64-byte blocks. -/
def chunks64 (b : Bytes) : List Bytes := chunks64go (b.length / 64 + 1) b

/-- SHA-256 of a byte string (models `SHA256::hash` in `crypto.cpp`). -/
def sha256 (msg : Bytes) : Bytes :=
  (((chunks64 (shaPad msg)).foldl shaCompress shaInit).map (natToBytesBE 4)).flatten

/-- Double SHA-256 (models `SHA256::double_hash` in `crypto.cpp`). -/
def double_sha256 (msg : Bytes) : Bytes := sha256 (sha256 msg)

/-- Every byte of a big-endian encoding is below 256. -/
theorem natToBytesBE_lt (k n : Nat) : ∀ b ∈ natToBytesBE k n, b < 256 := by
  induction k generalizing n with
  | zero => simp [natToBytesBE]
  | succ k ih =>
      intro b hb
      simp only [natToBytesBE, List.mem_append, List.mem_singleton] at hb
      rcases hb with hb | hb
      · exact ih _ b hb
      · subst hb; exact Nat.mod_lt _ (by norm_num)

/-- Every byte of a SHA-256 digest is below 256. -/
theorem sha256_bytes_lt (msg : Bytes) : ∀ b ∈ sha256 msg, b < 256 := by
  intro b hb
  simp only [sha256, List.mem_flatten, List.mem_map] at hb
  obtain ⟨l, ⟨w, _, hw⟩, hbl⟩ := hb
  exact natToBytesBE_lt 4 w b (hw ▸ hbl)

/-! ## Proof-of-work miner (`consensus.cpp`)

`ProofOfWorkMiner::compute_block_hash` appends the nonce to the block data as
4 little-endian bytes and double-SHA-256 hashes the result;
`meets_difficulty_target` compares a 64-bit value read from the first 8 hash
bytes against the 64-bit target expanded by `bits_to_target`. -/

/-- The 4-byte little-endian encoding of a 32-bit value (the in-memory bytes
of a `uint32_t` nonce). -/
def le32 (n : Nat) : Bytes :=
  [n % 256, n / 256 % 256, n / 65536 % 256, n / 16777216 % 256]

/-- Models `ProofOfWorkMiner::compute_block_hash`. -/
def compute_block_hash (block_data : Bytes) (nonce : Nat) : Bytes :=
  double_sha256 (block_data ++ le32 nonce)

/-- Models `ProofOfWorkMiner::bits_to_target`: expand the compact difficulty
into a single `uint64_t`. The left shift is reduced modulo `2 ^ 64` (C++
unsigned wrap-around; for exponents above 10 the C++ shift count reaches 64
and the behaviour is undefined — the reduction is the modeling choice there). -/
def bits_to_target (difficulty_bits : Nat) : Nat :=
  let exponent := difficulty_bits >>> 24
  let mantissa := difficulty_bits &&& 0xffffff
  if exponent ≤ 3 then mantissa >>> (8 * (3 - exponent))
  else (mantissa <<< (8 * (exponent - 3))) % w64

/-- Models the loop in `ProofOfWorkMiner::meets_difficulty_target` that reads
the first 8 hash bytes into a `uint64_t`:
`for i = 7 down to 0: value = (value << 8) | hash[i]`. -/
def hashPrefixValue (hash : Bytes) : Nat :=
  [7, 6, 5, 4, 3, 2, 1, 0].foldl (fun v i => (v <<< 8) ||| hash.getD i 0) 0

/-- Models `ProofOfWorkMiner::meets_difficulty_target`. -/
def meets_difficulty_target (hash : Bytes) (difficulty_bits : Nat) : Bool :=
  decide (hashPrefixValue hash ≤ bits_to_target difficulty_bits)

/-- Models `ProofOfWorkMiner::verify_proof_of_work` (also the body of
`BlockValidator::validate_proof_of_work`, which constructs a miner and
forwards to it). -/
def verify_proof_of_work (block_data : Bytes) (nonce difficulty_bits : Nat) : Bool :=
  meets_difficulty_target (compute_block_hash block_data nonce) difficulty_bits

/-- Spec-side value (spec section 4.1): the 256-bit big-endian integer value
of a hash. -/
def hashValueBE (hash : Bytes) : Nat := hash.foldl (fun v b => v * 256 + b) 0

/-- Spec-side target (spec section 4.1): the full 256-bit target
`mantissa * 256 ^ (exponent - 3)` expanded from the compact form. -/
def compactTargetValue (difficulty_bits : Nat) : Nat :=
  (difficulty_bits &&& 0xffffff) * 256 ^ ((difficulty_bits >>> 24) - 3)

/-- Spec-side reading of the amended claim: the little-endian integer value of
the first 8 hash bytes, written positionally. -/
def leValue64 (hash : Bytes) : Nat :=
  hash.getD 0 0 + 256 * hash.getD 1 0 + 256 ^ 2 * hash.getD 2 0 +
    256 ^ 3 * hash.getD 3 0 + 256 ^ 4 * hash.getD 4 0 + 256 ^ 5 * hash.getD 5 0 +
    256 ^ 6 * hash.getD 6 0 + 256 ^ 7 * hash.getD 7 0

/-- Shifting one byte in below a value: bitwise or coincides with addition. -/
theorem shiftLeft_or_byte (v b : Nat) (hb : b < 256) :
    (v <<< 8) ||| b = 256 * v + b := by
  rw [Nat.shiftLeft_eq, Nat.mul_comm v (2 ^ 8)]
  have h := Nat.mul_add_lt_is_or (b := b) (i := 8) (by norm_num [hb]) v
  rw [← h]

/-- Indexing with default into a byte string stays below 256. -/
theorem getD_lt_256 (h : Bytes) (hb : ∀ b ∈ h, b < 256) (i : Nat) :
    h.getD i 0 < 256 := by
  rcases Nat.lt_or_ge i h.length with hi | hi
  · refine hb _ ?_
    rw [List.getD_eq_getElem h 0 hi]
    exact h.getElem_mem hi
  · rw [List.getD_eq_default _ _ hi]; norm_num

/-- The byte-reading loop of `meets_difficulty_target` computes the
little-endian value of the first 8 hash bytes. -/
theorem hashPrefixValue_eq (h : Bytes) (hb : ∀ b ∈ h, b < 256) :
    hashPrefixValue h = leValue64 h := by
  have g := getD_lt_256 h hb
  simp only [hashPrefixValue, List.foldl_cons, List.foldl_nil]
  rw [show ((0 : Nat) <<< 8) ||| h.getD 7 0 = 256 * 0 + h.getD 7 0 from
        shiftLeft_or_byte 0 _ (g 7)]
  rw [shiftLeft_or_byte _ _ (g 6), shiftLeft_or_byte _ _ (g 5),
      shiftLeft_or_byte _ _ (g 4), shiftLeft_or_byte _ _ (g 3),
      shiftLeft_or_byte _ _ (g 2), shiftLeft_or_byte _ _ (g 1),
      shiftLeft_or_byte _ _ (g 0)]
  simp only [leValue64]; ring

set_option maxRecDepth 100000 in
/-- C1 (counterexample): with empty block data, nonce 0 and compact target
`0x0affffff`, `ProofOfWorkMiner::verify_proof_of_work` accepts although the
256-bit big-endian value of the double-SHA-256 hash exceeds the full target
`mantissa * 256 ^ (exponent - 3)`: the code compares only 8 hash bytes with a
64-bit truncation of the target, so the claimed equivalence with the full
256-bit comparison fails. -/
theorem pow_check_not_full_256bit_comparison :
    verify_proof_of_work [] 0 0x0affffff = true ∧
      ¬ hashValueBE (compute_block_hash [] 0) ≤ compactTargetValue 0x0affffff := by
  constructor
  · decide
  · decide

/-- C1 (amended): for every block data, nonce and compact difficulty,
`verify_proof_of_work` accepts exactly when the 64-bit little-endian value of
the FIRST 8 bytes of `double_sha256(block_data with the nonce appended as 4
little-endian bytes)` is at most the 64-bit truncated target
`(mantissa << 8 * (exponent - 3)) mod 2 ^ 64` (for exponents at most 3, the
mantissa shifted right) — not the full 256-bit comparison. -/
theorem pow_check_is_64bit_prefix_comparison (block_data : Bytes)
    (nonce difficulty_bits : Nat) :
    verify_proof_of_work block_data nonce difficulty_bits =
      decide (leValue64 (compute_block_hash block_data nonce) ≤
        bits_to_target difficulty_bits) := by
  have hb : ∀ b ∈ compute_block_hash block_data nonce, b < 256 := by
    unfold compute_block_hash double_sha256
    exact sha256_bytes_lt _
  unfold verify_proof_of_work meets_difficulty_target
  rw [hashPrefixValue_eq _ hb]

/-! ## Difficulty adjustment (`DifficultyAdjustment` in `consensus.cpp`)

The `double` computations are modeled with exact rationals. The bounds clamp
at the end of `calculate_next_difficulty` makes the returned value
independent of them: see `clampDifficultyBits_constant` below. -/

/-- Models `DifficultyAdjustment::MAX_DIFFICULTY_BITS`. -/
def MAX_DIFFICULTY_BITS : Nat := 0x1d00ffff

/-- Models `DifficultyAdjustment::MIN_DIFFICULTY_BITS`; numerically LARGER
than `MAX_DIFFICULTY_BITS`. -/
def MIN_DIFFICULTY_BITS : Nat := 0x207fffff

/-- Models the `max_target_value` computation shared by `bits_to_difficulty`
and `difficulty_to_bits`:
`(0x1d00ffff & 0xffffff) << (8 * ((0x1d00ffff >> 24) - 3))` on 32-bit
operands. The shift count is 208, undefined behaviour in C++, modeled as
shift-then-truncate; the clamp theorem below is independent of this value. -/
def maxTargetValue : ℚ :=
  ((((0x1d00ffff &&& 0xffffff) <<< (8 * ((0x1d00ffff >>> 24) - 3))) % w32 : Nat) : ℚ)

/-- Models `DifficultyAdjustment::bits_to_difficulty` with rationals in place
of `double`; `exponent - 3` is unsigned 32-bit subtraction, modeled modulo
`2 ^ 32`. -/
def bits_to_difficulty (difficulty_bits : Nat) : ℚ :=
  let exponent := difficulty_bits >>> 24
  let mantissa : ℚ := ((difficulty_bits &&& 0xffffff : Nat) : ℚ)
  let target_value : ℚ := mantissa * (256 : ℚ) ^ ((exponent + w32 - 3) % w32)
  maxTargetValue / target_value

/-- Models the mantissa normalization loop of
`DifficultyAdjustment::difficulty_to_bits`
(`while mantissa > 0xffffff: mantissa >>= 8; exponent++`); the structural
fuel of 40 covers every 64-bit mantissa. -/
def normalizeMantissa : Nat → Nat → Nat → Nat × Nat
  | 0, mantissa, exponent => (mantissa, exponent)
  | fuel + 1, mantissa, exponent =>
      if mantissa > 0xffffff then normalizeMantissa fuel (mantissa >>> 8) (exponent + 1)
      else (mantissa, exponent)

/-- Models `DifficultyAdjustment::difficulty_to_bits`; the
`static_cast<uint64_t>` of a `double` is modeled as floor-then-truncate. -/
def difficulty_to_bits (difficulty : ℚ) : Nat :=
  if difficulty ≤ 0 then MAX_DIFFICULTY_BITS
  else
    let target_value := maxTargetValue / difficulty
    let p := normalizeMantissa 40 ((⌊target_value⌋).toNat % w64) 1
    ((p.2 <<< 24) ||| (p.1 &&& 0xffffff)) % w32

/-- Models the final bounds enforcement of
`DifficultyAdjustment::calculate_next_difficulty`:
`if (bits > MAX_DIFFICULTY_BITS) bits = MAX_DIFFICULTY_BITS;`
`if (bits < MIN_DIFFICULTY_BITS) bits = MIN_DIFFICULTY_BITS;`. -/
def clampDifficultyBits (nb : Nat) : Nat :=
  let nb1 := if nb > MAX_DIFFICULTY_BITS then MAX_DIFFICULTY_BITS else nb
  if nb1 < MIN_DIFFICULTY_BITS then MIN_DIFFICULTY_BITS else nb1

/-- Models `DifficultyAdjustment::calculate_next_difficulty`: clamp the
actual time span into `[expected / 4, expected * 4]`, scale the difficulty by
`expected / actual`, convert back to compact bits, and enforce the bounds. -/
def calculate_next_difficulty
    (current_difficulty actual_time_span target_time_span : Nat) : Nat :=
  let a1 := if actual_time_span < target_time_span / 4 then target_time_span / 4
            else actual_time_span
  let a2 := if a1 > target_time_span * 4 % w64 then target_time_span * 4 % w64 else a1
  let adjustment_factor : ℚ := (target_time_span : ℚ) / (a2 : ℚ)
  let new_difficulty := bits_to_difficulty current_difficulty * adjustment_factor
  clampDifficultyBits (difficulty_to_bits new_difficulty)

/-- The bounds clamp is constant: whatever compact value the adjustment
computes, comparing it numerically against `MAX_DIFFICULTY_BITS = 0x1d00ffff`
and then `MIN_DIFFICULTY_BITS = 0x207fffff` always ends at `0x207fffff`. -/
theorem clampDifficultyBits_constant (nb : Nat) :
    clampDifficultyBits nb = MIN_DIFFICULTY_BITS := by
  unfold clampDifficultyBits MAX_DIFFICULTY_BITS MIN_DIFFICULTY_BITS
  by_cases h : nb > 486604799
  · rw [if_pos h]
    norm_num
  · rw [if_neg h]
    show (if nb < 545259519 then 545259519 else nb) = 545259519
    rw [if_pos (by omega : nb < 545259519)]

/-- C2: `DifficultyAdjustment::calculate_next_difficulty` returns
`0x207fffff` for EVERY input, because the final bounds clamp compares compact
bits numerically with inverted constants
(`MIN_DIFFICULTY_BITS = 0x207fffff > MAX_DIFFICULTY_BITS = 0x1d00ffff`); in
particular with current difficulty `0x1d00ffff` and the actual span equal to
the expected span (2016 blocks at 600 s), the expanded 256-bit target of the
result is far more than 4 times the old target, contradicting the claimed
retarget clamping. -/
theorem calculate_next_difficulty_always_min :
    (∀ c a t, calculate_next_difficulty c a t = 0x207fffff) ∧
      ¬ compactTargetValue (calculate_next_difficulty 0x1d00ffff 1209600 1209600) ≤
          4 * compactTargetValue 0x1d00ffff := by
  have hconst : ∀ c a t, calculate_next_difficulty c a t = 0x207fffff := fun c a t =>
    clampDifficultyBits_constant _
  refine ⟨hconst, ?_⟩
  rw [hconst]
  decide

/-! ## Timestamp validation (`BlockValidator::validate_timestamp`) -/

/-- Models `BlockValidator::validate_timestamp`: reject when the block
timestamp does not exceed the previous block timestamp, or exceeds the
current time by more than 7200 seconds (the addition wraps on `uint64_t`). -/
def validate_timestamp
    (block_timestamp previous_block_timestamp current_time : Nat) : Bool :=
  if block_timestamp ≤ previous_block_timestamp then false
  else if block_timestamp > (current_time + 7200) % w64 then false
  else true

/-- Insertion into a sorted list of timestamps (for the spec-side median). -/
def insertSorted (x : Nat) : List Nat → List Nat
  | [] => [x]
  | y :: ys => if x ≤ y then x :: y :: ys else y :: insertSorted x ys

/-- Insertion sort of timestamps (for the spec-side median). -/
def sortTimestamps (l : List Nat) : List Nat := l.foldr insertSorted []

/-- Spec-side definition following the words of claim C9: the median of a
list of block timestamps. -/
def medianTimestamp (l : List Nat) : Nat :=
  (sortTimestamps l).getD (l.length / 2) 0

/-- C9 (counterexample): previous 11 block timestamps 1..11 (median 6),
candidate timestamp 7, current time 100. The claimed acceptance condition
holds (7 exceeds the median 6 and is within the 7200 s drift), yet
`BlockValidator::validate_timestamp` — whose only history input is the single
previous block timestamp, here 11 — rejects: the code compares against the
predecessor timestamp, not the median of the previous 11. -/
theorem timestamp_check_not_median_of_11 :
    ¬ (validate_timestamp 7 11 100 = true ↔
        (medianTimestamp [1, 2, 3, 4, 5, 6, 7, 8, 9, 10, 11] < 7 ∧ 7 ≤ 100 + 7200)) := by
  decide

/-- C9 (amended): `validate_timestamp` accepts a candidate block exactly when
its timestamp strictly exceeds the single previous block timestamp (not a
median of 11) and is at most `current_time + 7200`. -/
theorem timestamp_check_previous_and_drift (b p now : Nat) :
    validate_timestamp b p now =
      (decide (p < b) && decide (b ≤ (now + 7200) % w64)) := by
  unfold validate_timestamp
  by_cases h1 : b ≤ p
  · rw [if_pos h1, decide_eq_false (by omega : ¬ p < b)]
    simp
  · rw [if_neg h1]
    by_cases h2 : b > (now + 7200) % w64
    · rw [if_pos h2, decide_eq_false (by omega : ¬ b ≤ (now + 7200) % w64)]
      simp
    · rw [if_neg h2, decide_eq_true (by omega : p < b),
        decide_eq_true (by omega : b ≤ (now + 7200) % w64)]
      simp

/-! ## Merkle tree (`MerkleTree` in `crypto.cpp`, `Block::calculate_merkle_root`)

`MerkleTree::build_tree` combines each level pairwise with a SINGLE
`SHA256::hash` over the 64-byte concatenation, duplicating a trailing
unpaired hash; `get_proof` collects the sibling at each level and
`verify_proof` rebuilds the path ordering by the index's low bit. -/

/-- The default-constructed `Hash256` (32 zero bytes). -/
def zeroHash32 : Bytes := List.replicate 32 0

/-- One level-combination step of the loop in `MerkleTree::build_tree`. -/
def nextLevel : List Bytes → List Bytes
  | [] => []
  | [a] => [sha256 (a ++ a)]
  | a :: b :: rest => sha256 (a ++ b) :: nextLevel rest

/-- The root-extraction loop of `MerkleTree::build_tree` (iterate `nextLevel`
while more than one hash remains) combined with `get_root`; the structural
fuel is sufficient whenever it is at least the level length. -/
def rootOfGo : Nat → List Bytes → Bytes
  | 0, L => L.headD zeroHash32
  | fuel + 1, L =>
      if L.length ≤ 1 then L.headD zeroHash32 else rootOfGo fuel (nextLevel L)

/-- Models `MerkleTree(leaves).get_root()`: the single hash left after the
`build_tree` loop, or the zero hash for an empty tree. -/
def get_root (L : List Bytes) : Bytes := rootOfGo L.length L

/-- The per-level loop of `MerkleTree::get_proof`: push the sibling (the node
itself when it has none) and halve the index. -/
def proofOfGo : Nat → List Bytes → Nat → List Bytes
  | 0, _, _ => []
  | fuel + 1, L, i =>
      if L.length ≤ 1 then []
      else
        (if i % 2 = 0 then
          (if i + 1 < L.length then L.getD (i + 1) zeroHash32 else L.getD i zeroHash32)
         else L.getD (i - 1) zeroHash32) :: proofOfGo fuel (nextLevel L) (i / 2)

/-- Models `MerkleTree(leaves).get_proof(leaf_index)`, including the empty
proof returned for an out-of-range index. -/
def get_proof (L : List Bytes) (leaf_index : Nat) : List Bytes :=
  if L.length = 0 ∨ leaf_index ≥ L.length then [] else proofOfGo L.length L leaf_index

/-- The hash-rebuilding loop of `MerkleTree::verify_proof`: combine with each
proof element on the side selected by the index's low bit, halving the
index. -/
def verifyFold (current : Bytes) (i : Nat) : List Bytes → Bytes
  | [] => current
  | p :: rest =>
      verifyFold (if i % 2 = 0 then sha256 (current ++ p) else sha256 (p ++ current))
        (i / 2) rest

/-- Models `MerkleTree::verify_proof` (the `tree_size` parameter is accepted
and ignored, exactly as in the source). -/
def verify_proof (leaf_hash : Bytes) (proof : List Bytes) (root : Bytes)
    (leaf_index tree_size : Nat) : Bool :=
  verifyFold leaf_hash leaf_index proof == root

/-- Models `Block::calculate_merkle_root`: the all-zero hash for an empty
transaction list, otherwise the `MerkleTree` root over the transaction
ids. -/
def calculate_merkle_root (txids : List Bytes) : Bytes :=
  if txids.isEmpty then zeroHash32 else get_root txids

/-- A combined level has `(n + 1) / 2` hashes. -/
theorem nextLevel_length : ∀ L : List Bytes, (nextLevel L).length = (L.length + 1) / 2
  | [] => by simp [nextLevel]
  | [a] => by simp [nextLevel]
  | a :: b :: rest => by
      have ih := nextLevel_length rest
      simp [nextLevel, ih]
      omega

/-- Entry `j` of a combined level is the single SHA-256 of the concatenation
of entries `2 j` and `2 j + 1` of the level below, the latter replaced by
entry `2 j` itself when the level ends at `2 j`. -/
theorem nextLevel_getD : ∀ (L : List Bytes) (j : Nat), j < (nextLevel L).length →
    (nextLevel L).getD j zeroHash32 =
      sha256 (L.getD (2 * j) zeroHash32 ++
        (if 2 * j + 1 < L.length then L.getD (2 * j + 1) zeroHash32
         else L.getD (2 * j) zeroHash32))
  | [], j, h => by simp [nextLevel] at h
  | [a], j, h => by
      have hlen : (nextLevel [a]).length = 1 := by simp [nextLevel]
      have hj : j = 0 := by rw [hlen] at h; omega
      subst hj
      simp [nextLevel]
  | a :: b :: rest, 0, h => by
      have hlt : 2 * 0 + 1 < (a :: b :: rest).length := by simp
      rw [if_pos hlt]
      simp [nextLevel]
  | a :: b :: rest, j + 1, h => by
      have h2 : j < (nextLevel rest).length := by simp [nextLevel] at h; omega
      have ih := nextLevel_getD rest j h2
      have e1 : 2 * (j + 1) = 2 * j + 1 + 1 := by ring
      have econd : (2 * (j + 1) + 1 < (a :: b :: rest).length) =
          (2 * j + 1 < rest.length) := by
        simp only [List.length_cons]
        exact propext (by omega)
      simp only [econd]
      simp only [e1]
      simp only [nextLevel, List.getD_cons_succ]
      exact ih

/-- Rebuilding a leaf's path with the recorded siblings reproduces the value
that the `build_tree` loop places at the halved index of the next level, and
hence, by iteration, the tree root. -/
theorem verifyFold_roundtrip : ∀ (fuel : Nat) (L : List Bytes) (i : Nat),
    L.length ≤ fuel → L ≠ [] → i < L.length →
    verifyFold (L.getD i zeroHash32) i (proofOfGo fuel L i) = rootOfGo fuel L := by
  intro fuel
  induction fuel with
  | zero =>
      intro L i hfuel hne _
      exact absurd (List.length_eq_zero.mp (Nat.le_zero.mp hfuel)) hne
  | succ fuel ih =>
      intro L i hfuel hne hi
      by_cases hlen : L.length ≤ 1
      · have h1 : L.length = 1 := by
          have := List.length_pos.mpr hne
          omega
        have hi0 : i = 0 := by omega
        subst hi0
        simp only [proofOfGo, rootOfGo, if_pos hlen, verifyFold]
        rcases L with _ | ⟨x, xs⟩
        · exact absurd rfl hne
        · have : xs = [] := by simpa using h1
          subst this
          rfl
      · have hlen2 : 1 < L.length := by omega
        simp only [proofOfGo, rootOfGo, if_neg hlen]
        have hjlt : i / 2 < (nextLevel L).length := by
          rw [nextLevel_length]
          omega
        have hstep :
            (if i % 2 = 0 then
                sha256 (L.getD i zeroHash32 ++
                  (if i + 1 < L.length then L.getD (i + 1) zeroHash32
                   else L.getD i zeroHash32))
              else sha256 (L.getD (i - 1) zeroHash32 ++ L.getD i zeroHash32)) =
            (nextLevel L).getD (i / 2) zeroHash32 := by
          rw [nextLevel_getD L (i / 2) hjlt]
          by_cases hpar : i % 2 = 0
          · have e : 2 * (i / 2) = i := by omega
            rw [if_pos hpar, e]
          · have e : 2 * (i / 2) = i - 1 := by omega
            rw [if_neg hpar, e]
            have e3 : i - 1 + 1 = i := by omega
            rw [e3, if_pos hi]
        have hrec := ih (nextLevel L) (i / 2)
          (by rw [nextLevel_length]; omega)
          (by
            have : 0 < (nextLevel L).length := by rw [nextLevel_length]; omega
            exact List.ne_nil_of_length_pos this)
          hjlt
        simp only [verifyFold]
        by_cases hpar : i % 2 = 0
        · rw [if_pos hpar]
          rw [if_pos hpar] at hstep
          rw [show sha256 (L.getD i zeroHash32 ++
                (if i % 2 = 0 then
                  (if i + 1 < L.length then L.getD (i + 1) zeroHash32
                   else L.getD i zeroHash32)
                 else L.getD (i - 1) zeroHash32)) =
              (nextLevel L).getD (i / 2) zeroHash32 from by
            rw [if_pos hpar]; exact hstep]
          exact hrec
        · rw [if_neg hpar]
          rw [if_neg hpar] at hstep
          rw [show sha256 ((if i % 2 = 0 then
                  (if i + 1 < L.length then L.getD (i + 1) zeroHash32
                   else L.getD i zeroHash32)
                 else L.getD (i - 1) zeroHash32) ++ L.getD i zeroHash32) =
              (nextLevel L).getD (i / 2) zeroHash32 from by
            rw [if_neg hpar]; exact hstep]
          exact hrec

/-- C5: for every non-empty list of leaf hashes and every in-range leaf
index, `MerkleTree::verify_proof` accepts the proof produced by
`MerkleTree::get_proof` for that leaf against `MerkleTree::get_root`, the
left/right order at each level being determined by the low bit of the
index. -/
theorem merkle_proof_roundtrip (H : List Bytes) (i : Nat)
    (hne : H ≠ []) (hi : i < H.length) :
    verify_proof (H.getD i zeroHash32) (get_proof H i) (get_root H) i H.length = true := by
  unfold verify_proof get_proof get_root
  rw [if_neg (by
    push_neg
    exact ⟨fun h => absurd (List.length_eq_zero.mp h) hne, hi⟩)]
  rw [verifyFold_roundtrip H.length H i le_rfl hne hi]
  simp

/-- C5 (witness): the two-leaf tree over the all-zero and all-one hashes,
with the proof for leaf index 1. -/
theorem merkle_proof_roundtrip_witness :
    ([List.replicate 32 0, List.replicate 32 1] ≠ ([] : List Bytes)) ∧
      1 < ([List.replicate 32 0, List.replicate 32 1] : List Bytes).length ∧
      verify_proof (([List.replicate 32 0, List.replicate 32 1] :
          List Bytes).getD 1 zeroHash32)
        (get_proof [List.replicate 32 0, List.replicate 32 1] 1)
        (get_root [List.replicate 32 0, List.replicate 32 1]) 1
        ([List.replicate 32 0, List.replicate 32 1] : List Bytes).length = true :=
  ⟨by decide, by decide,
    merkle_proof_roundtrip [List.replicate 32 0, List.replicate 32 1] 1
      (by decide) (by decide)⟩

set_option maxRecDepth 100000 in
/-- C4 (counterexample): the parent that `MerkleTree::build_tree` computes
for the pair of two all-zero hashes is the SINGLE SHA-256 of the 64-byte
concatenation and differs from the claimed `double_sha256(L ∥ R)`. -/
theorem merkle_parent_not_double_sha256 :
    (nextLevel [zeroHash32, zeroHash32]).getD 0 zeroHash32 ≠
      double_sha256 (zeroHash32 ++ zeroHash32) := by
  decide

/-- C4 (amended): for every non-empty transaction-id list,
`Block::calculate_merkle_root` is the hash reached by repeatedly pairing
adjacent hashes — duplicating the last hash of an odd-length level — with the
parent of a pair `(L, R)` being the SINGLE `sha256(L ∥ R)` (not
`double_sha256`). -/
theorem merkle_root_single_sha256_pairing (H : List Bytes) (hne : H ≠ []) :
    calculate_merkle_root H = get_root H ∧
      ∀ (L : List Bytes) (j : Nat), j < (nextLevel L).length →
        (nextLevel L).getD j zeroHash32 =
          sha256 (L.getD (2 * j) zeroHash32 ++
            (if 2 * j + 1 < L.length then L.getD (2 * j + 1) zeroHash32
             else L.getD (2 * j) zeroHash32)) := by
  refine ⟨?_, nextLevel_getD⟩
  unfold calculate_merkle_root
  rw [if_neg (by simpa using hne)]

/-- C4 (witness): the amended statement at the singleton list containing the
all-zero hash. -/
theorem merkle_root_single_sha256_pairing_witness :
    ([zeroHash32] ≠ ([] : List Bytes)) ∧
      (calculate_merkle_root [zeroHash32] = get_root [zeroHash32] ∧
        ∀ (L : List Bytes) (j : Nat), j < (nextLevel L).length →
          (nextLevel L).getD j zeroHash32 =
            sha256 (L.getD (2 * j) zeroHash32 ++
              (if 2 * j + 1 < L.length then L.getD (2 * j + 1) zeroHash32
               else L.getD (2 * j) zeroHash32))) :=
  ⟨by decide, merkle_root_single_sha256_pairing [zeroHash32] (by decide)⟩

/-! ## UTXO set (spec-modelled)

`UTXOSet::apply_transaction` and `UTXOSet::rollback_transaction` are declared
in `include/blockchain/transaction.hpp` and used by
`Block::apply_to_utxo_set` / `Block::rollback_from_utxo_set`, but their
implementation is not part of the sources. The operations below are modelled
from the spec, section 4.2. -/

/-- An outpoint: transaction hash and output index. -/
structure OutPoint where
  tx_hash : Bytes
  index : Nat
deriving DecidableEq

/-- A transaction output: value in satoshi and locking script. -/
structure TxOutput where
  value : Nat
  script_pubkey : Bytes
deriving DecidableEq

/-- A transaction input: previous outpoint, unlocking script and sequence. -/
structure TxInput where
  prev : OutPoint
  unlocking_script : Bytes
  sequence : Nat
deriving DecidableEq

/-- A transaction (legacy fields; witnesses do not enter the UTXO rules). -/
structure Transaction where
  version : Nat
  inputs : List TxInput
  outputs : List TxOutput
  locktime : Nat
deriving DecidableEq

/-- The little-endian `k`-byte encoding of a natural number. -/
def leBytes (k n : Nat) : Bytes := (natToBytesBE k n).reverse

/-- The Bitcoin-style variable-length integer encoding (spec section 4.1). -/
def varint (n : Nat) : Bytes :=
  if n < 0xfd then [n]
  else if n ≤ 0xffff then 0xfd :: leBytes 2 n
  else if n ≤ 0xffffffff then 0xfe :: leBytes 4 n
  else 0xff :: leBytes 8 n

/-- Legacy serialization of one input (spec section 6.4). -/
def serializeInput (i : TxInput) : Bytes :=
  i.prev.tx_hash ++ leBytes 4 i.prev.index ++ varint i.unlocking_script.length ++
    i.unlocking_script ++ leBytes 4 i.sequence

/-- Legacy serialization of one output (spec section 6.4). -/
def serializeOutput (o : TxOutput) : Bytes :=
  leBytes 8 o.value ++ varint o.script_pubkey.length ++ o.script_pubkey

/-- Legacy (no-witness) transaction serialization (spec section 6.4). -/
def serialize_legacy (tx : Transaction) : Bytes :=
  leBytes 4 tx.version ++ varint tx.inputs.length ++
    (tx.inputs.map serializeInput).flatten ++ varint tx.outputs.length ++
    (tx.outputs.map serializeOutput).flatten ++ leBytes 4 tx.locktime

/-- The transaction id: double SHA-256 of the legacy serialization
(`Transaction::get_hash`). -/
def txid (tx : Transaction) : Bytes := double_sha256 (serialize_legacy tx)

/-- Models `TxInput::is_coinbase`: null outpoint (all-zero hash, index
`0xffffffff`). -/
def TxInput.isCoinbaseInput (i : TxInput) : Bool :=
  decide (i.prev.tx_hash = zeroHash32) && decide (i.prev.index = 0xffffffff)

/-- Models `Transaction::is_coinbase`: exactly one input, and it is null. -/
def Transaction.isCoinbaseTx (tx : Transaction) : Bool :=
  decide (tx.inputs.length = 1) &&
    (tx.inputs.headD ⟨⟨[], 0⟩, [], 0⟩).isCoinbaseInput

/-- A stored UTXO entry: the output plus creation height and coinbase flag. -/
structure UTXOEntry where
  output : TxOutput
  block_height : Nat
  is_coinbase : Bool
deriving DecidableEq

/-- Modelled from the spec: the UTXO set is a mapping from outpoints to
entries, unique by outpoint (spec section 3); the `UTXOSet` class body is not
in the sources. -/
def UTXOSet := OutPoint → Option UTXOEntry

/-- Modelled from the spec: `add(outpoint, entry)` fails with `AlreadyExists`
when the outpoint is present (spec section 4.2). -/
def utxoAdd (S : UTXOSet) (o : OutPoint) (e : UTXOEntry) : Option UTXOSet :=
  match S o with
  | some _ => none
  | none => some (fun x => if x = o then some e else S x)

/-- Modelled from the spec: `remove(outpoint)` fails with `NotFound` when the
outpoint is absent (spec section 4.2). -/
def utxoRemove (S : UTXOSet) (o : OutPoint) : Option UTXOSet :=
  match S o with
  | none => none
  | some _ => some (fun x => if x = o then none else S x)

/-- Sequential insertion of a list of entries; any failure aborts. -/
def addAll (S : UTXOSet) : List (OutPoint × UTXOEntry) → Option UTXOSet
  | [] => some S
  | (o, e) :: rest =>
      match utxoAdd S o e with
      | none => none
      | some S2 => addAll S2 rest

/-- Sequential removal of a list of outpoints; any failure aborts. -/
def removeAll (S : UTXOSet) : List OutPoint → Option UTXOSet
  | [] => some S
  | o :: rest =>
      match utxoRemove S o with
      | none => none
      | some S2 => removeAll S2 rest

/-- `COINBASE_MATURITY` (100 blocks). -/
def COINBASE_MATURITY : Nat := 100

/-- Modelled from the spec: step 1 of `apply_transaction` — look up every
input outpoint (they must exist), enforce coinbase maturity, and record the
prior entries as the undo log (spec sections 4.2 and design note on undo
logs). -/
def collectInputs (S : UTXOSet) (block_height : Nat) :
    List TxInput → Option (List (OutPoint × UTXOEntry))
  | [] => some []
  | i :: rest =>
      match S i.prev with
      | none => none
      | some e =>
          if e.is_coinbase ∧ block_height - e.block_height < COINBASE_MATURITY then none
          else
            match collectInputs S block_height rest with
            | none => none
            | some undo => some ((i.prev, e) :: undo)

/-- The outpoints of the outputs a transaction creates. -/
def outputOutPoints (tx : Transaction) : List OutPoint :=
  (List.range tx.outputs.length).map (fun k => ⟨txid tx, k⟩)

/-- The UTXO entries a transaction creates at a given block height: one per
output, keyed `(txid, k)`. -/
def outputEntries (tx : Transaction) (block_height : Nat) :
    List (OutPoint × UTXOEntry) :=
  (List.range tx.outputs.length).map
    (fun k => (⟨txid tx, k⟩, ⟨tx.outputs.getD k ⟨0, []⟩, block_height, tx.isCoinbaseTx⟩))

/-- Modelled from the spec: `apply_transaction(tx, block_height)` — for a
coinbase transaction the input side is skipped; otherwise the inputs are
looked up with the maturity rule (building the undo log), the output sum must
not exceed the input sum, then all input outpoints are removed and one UTXO
per output added; any failure leaves the set untouched (spec section 4.2). -/
def apply_transaction (S : UTXOSet) (tx : Transaction) (block_height : Nat) :
    Option (UTXOSet × List (OutPoint × UTXOEntry)) :=
  if tx.isCoinbaseTx then
    match addAll S (outputEntries tx block_height) with
    | none => none
    | some S2 => some (S2, [])
  else
    match collectInputs S block_height tx.inputs with
    | none => none
    | some undo =>
        if (tx.outputs.map TxOutput.value).sum ≤
            (undo.map (fun pe => pe.2.output.value)).sum then
          match removeAll S (tx.inputs.map (fun i => i.prev)) with
          | none => none
          | some S1 =>
              match addAll S1 (outputEntries tx block_height) with
              | none => none
              | some S2 => some (S2, undo)
        else none

/-- Modelled from the spec: `rollback_transaction(tx)` reverses
`apply_transaction` — remove the produced outputs and reinsert the spent
entries, which are supplied by the caller-maintained undo log (spec
section 4.2). -/
def rollback_transaction (S : UTXOSet) (tx : Transaction)
    (undo : List (OutPoint × UTXOEntry)) : Option UTXOSet :=
  match removeAll S (outputOutPoints tx) with
  | none => none
  | some S1 => addAll S1 undo

/-- Structural well-formedness of a transaction for the apply/rollback claim:
at least one input and one output (spec section 3), and no input spends an
outpoint that the transaction itself creates (true of every real transaction,
whose id is the hash of its own body). -/
def txWellFormed (tx : Transaction) : Prop :=
  tx.inputs ≠ [] ∧ tx.outputs ≠ [] ∧
    ∀ i ∈ tx.inputs, i.prev ∉ outputOutPoints tx

/-- A successful `removeAll` erases exactly the listed outpoints. -/
theorem removeAll_lookup : ∀ (os : List OutPoint) (S S1 : UTXOSet),
    removeAll S os = some S1 → ∀ x, S1 x = if x ∈ os then none else S x
  | [], S, S1, h, x => by
      simp only [removeAll, Option.some.injEq] at h
      subst h
      simp
  | o :: rest, S, S1, h, x => by
      simp only [removeAll, utxoRemove] at h
      cases hS : S o with
      | none => rw [hS] at h; exact absurd h (by simp)
      | some e =>
          rw [hS] at h
          simp only [] at h
          have ih := removeAll_lookup rest _ _ h x
          rw [ih]
          by_cases h1 : x = o
          · subst h1
            by_cases h2 : x ∈ rest <;> simp [h2]
          · by_cases h2 : x ∈ rest <;> simp [List.mem_cons, h1, h2]

/-- A successful `removeAll` requires every listed outpoint to be present. -/
theorem removeAll_present : ∀ (os : List OutPoint) (S S1 : UTXOSet),
    removeAll S os = some S1 → ∀ o ∈ os, S o ≠ none
  | [], _, _, _, o, ho => by simp at ho
  | p :: rest, S, S1, h, o, ho => by
      simp only [removeAll, utxoRemove] at h
      cases hS : S p with
      | none => rw [hS] at h; exact absurd h (by simp)
      | some e =>
          rw [hS] at h
          simp only [] at h
          rcases List.mem_cons.mp ho with rfl | hmem
          · rw [hS]; simp
          · have ih := removeAll_present rest _ _ h o hmem
            by_cases h1 : o = p
            · subst h1
              rw [hS]; simp
            · intro hno
              exact ih (by simp [h1, hno])

/-- A successful `removeAll` implies the listed outpoints are distinct. -/
theorem removeAll_nodup : ∀ (os : List OutPoint) (S S1 : UTXOSet),
    removeAll S os = some S1 → os.Nodup
  | [], _, _, _ => List.nodup_nil
  | o :: rest, S, S1, h => by
      simp only [removeAll, utxoRemove] at h
      cases hS : S o with
      | none => rw [hS] at h; exact absurd h (by simp)
      | some e =>
          rw [hS] at h
          simp only [] at h
          refine List.nodup_cons.mpr ⟨?_, removeAll_nodup rest _ _ h⟩
          intro hmem
          have := removeAll_present rest _ _ h o hmem
          exact this (by simp)

/-- `removeAll` succeeds on distinct, present outpoints. -/
theorem removeAll_succeeds : ∀ (os : List OutPoint) (S : UTXOSet),
    os.Nodup → (∀ o ∈ os, S o ≠ none) → ∃ S1, removeAll S os = some S1
  | [], S, _, _ => ⟨S, rfl⟩
  | o :: rest, S, hnd, hpres => by
      rcases List.nodup_cons.mp hnd with ⟨hno, hndr⟩
      cases hS : S o with
      | none => exact absurd hS (hpres o (by simp))
      | some e =>
          have hrest : ∀ p ∈ rest, (fun x => if x = o then none else S x) p ≠ none := by
            intro p hp
            have hne : p ≠ o := fun hpo => hno (hpo ▸ hp)
            simp only [if_neg hne]
            exact hpres p (by simp [hp])
          obtain ⟨S1, hS1⟩ := removeAll_succeeds rest _ hndr hrest
          exact ⟨S1, by simp only [removeAll, utxoRemove, hS]; exact hS1⟩

/-- A successful `addAll` leaves unlisted outpoints untouched. -/
theorem addAll_untouched : ∀ (l : List (OutPoint × UTXOEntry)) (S S2 : UTXOSet),
    addAll S l = some S2 → ∀ x, x ∉ l.map Prod.fst → S2 x = S x
  | [], S, S2, h, x, _ => by
      simp only [addAll, Option.some.injEq] at h
      subst h; rfl
  | (o, e) :: rest, S, S2, h, x, hx => by
      simp only [addAll, utxoAdd] at h
      cases hS : S o with
      | some d => rw [hS] at h; exact absurd h (by simp)
      | none =>
          rw [hS] at h
          simp only [] at h
          have hxr : x ∉ rest.map Prod.fst := by
            intro hmem; exact hx (by simp [hmem])
          have hxo : x ≠ o := by
            intro hxo; exact hx (by simp [hxo])
          rw [addAll_untouched rest _ _ h x hxr]
          simp [if_neg hxo]

/-- A successful `addAll` requires every listed outpoint to be absent from
the initial set. -/
theorem addAll_absent : ∀ (l : List (OutPoint × UTXOEntry)) (S S2 : UTXOSet),
    addAll S l = some S2 → ∀ pe ∈ l, S pe.1 = none
  | [], _, _, _, pe, hpe => by simp at hpe
  | (o, e) :: rest, S, S2, h, pe, hpe => by
      simp only [addAll, utxoAdd] at h
      cases hS : S o with
      | some d => rw [hS] at h; exact absurd h (by simp)
      | none =>
          rw [hS] at h
          simp only [] at h
          rcases List.mem_cons.mp hpe with rfl | hmem
          · exact hS
          · have ih := addAll_absent rest _ _ h pe hmem
            by_cases h1 : pe.1 = o
            · rw [h1] at ih
              simp at ih
            · simpa [if_neg h1] using ih

/-- A successful `addAll` stores every listed entry. -/
theorem addAll_stored : ∀ (l : List (OutPoint × UTXOEntry)) (S S2 : UTXOSet),
    addAll S l = some S2 → ∀ pe ∈ l, S2 pe.1 = some pe.2
  | [], _, _, _, pe, hpe => by simp at hpe
  | (o, e) :: rest, S, S2, h, pe, hpe => by
      simp only [addAll, utxoAdd] at h
      cases hS : S o with
      | some d => rw [hS] at h; exact absurd h (by simp)
      | none =>
          rw [hS] at h
          simp only [] at h
          rcases List.mem_cons.mp hpe with heq | hmem
          · subst heq
            have hnotrest : o ∉ rest.map Prod.fst := by
              intro hmem2
              rcases List.mem_map.mp hmem2 with ⟨qe, hqe, hq1⟩
              have h2 := addAll_absent rest _ _ h qe hqe
              rw [hq1] at h2
              simp at h2
            have h3 := addAll_untouched rest _ _ h o hnotrest
            simpa using h3
          · exact addAll_stored rest _ _ h pe hmem

/-- `addAll` succeeds when the keys are distinct and absent. -/
theorem addAll_succeeds : ∀ (l : List (OutPoint × UTXOEntry)) (S : UTXOSet),
    (l.map Prod.fst).Nodup → (∀ pe ∈ l, S pe.1 = none) → ∃ S2, addAll S l = some S2
  | [], S, _, _ => ⟨S, rfl⟩
  | (o, e) :: rest, S, hnd, habs => by
      have hS : S o = none := habs (o, e) (by simp)
      rw [List.map_cons] at hnd
      rcases List.nodup_cons.mp hnd with ⟨hno, hndr⟩
      have hrest : ∀ pe ∈ rest, (fun x => if x = o then some e else S x) pe.1 = none := by
        intro pe hpe
        have hne : pe.1 ≠ o := by
          intro hpo
          have hm : pe.1 ∈ rest.map Prod.fst := List.mem_map_of_mem Prod.fst hpe
          rw [hpo] at hm
          exact hno hm
        simp only [if_neg hne]
        exact habs pe (by simp [hpe])
      obtain ⟨S2, hS2⟩ :=
        addAll_succeeds rest (fun x => if x = o then some e else S x) hndr hrest
      exact ⟨S2, by simp only [addAll, utxoAdd, hS]; exact hS2⟩

/-- A successful `collectInputs` records exactly the input outpoints with
their prior entries. -/
theorem collectInputs_spec : ∀ (ins : List TxInput) (S : UTXOSet) (bh : Nat)
    (undo : List (OutPoint × UTXOEntry)),
    collectInputs S bh ins = some undo →
    undo.map Prod.fst = ins.map (fun i => i.prev) ∧ ∀ pe ∈ undo, S pe.1 = some pe.2
  | [], S, bh, undo, h => by
      simp only [collectInputs, Option.some.injEq] at h
      subst h
      simp
  | i :: rest, S, bh, undo, h => by
      simp only [collectInputs] at h
      cases hS : S i.prev with
      | none => rw [hS] at h; exact absurd h (by simp)
      | some e =>
          rw [hS] at h
          simp only [] at h
          split at h
          · exact absurd h (by simp)
          · cases hrec : collectInputs S bh rest with
            | none => rw [hrec] at h; exact absurd h (by simp)
            | some undo2 =>
                rw [hrec] at h
                simp only [Option.some.injEq] at h
                subst h
                obtain ⟨ih1, ih2⟩ := collectInputs_spec rest S bh undo2 hrec
                refine ⟨by simp [ih1], ?_⟩
                intro pe hpe
                rcases List.mem_cons.mp hpe with rfl | hmem
                · exact hS
                · exact ih2 pe hmem

/-- The outpoints a transaction creates are pairwise distinct. -/
theorem outputOutPoints_nodup (tx : Transaction) : (outputOutPoints tx).Nodup := by
  unfold outputOutPoints
  refine List.Nodup.map ?_ (List.nodup_range _)
  intro a b hab
  simpa using congrArg OutPoint.index hab

/-- The keys of the created entries are the created outpoints. -/
theorem outputEntries_keys (tx : Transaction) (bh : Nat) :
    (outputEntries tx bh).map Prod.fst = outputOutPoints tx := by
  unfold outputEntries outputOutPoints
  rw [List.map_map]
  rfl

/-- C3 (spec-modelled): applying a well-formed transaction to a UTXO set and
rolling it back with the recorded undo log restores the set exactly, and a
second application of the same transaction to the updated set fails. -/
theorem utxo_apply_rollback_exact (S : UTXOSet) (tx : Transaction) (bh : Nat)
    (S2 : UTXOSet) (undo : List (OutPoint × UTXOEntry))
    (hwf : txWellFormed tx)
    (happly : apply_transaction S tx bh = some (S2, undo)) :
    rollback_transaction S2 tx undo = some S ∧
      apply_transaction S2 tx bh = none := by
  obtain ⟨hin, hout, hdisj⟩ := hwf
  by_cases hcb : tx.isCoinbaseTx
  · -- coinbase: no inputs consumed, undo log empty
    rw [apply_transaction, if_pos hcb] at happly
    have hdecomp : addAll S (outputEntries tx bh) = some S2 ∧ undo = [] := by
      cases h2 : addAll S (outputEntries tx bh) with
      | none => rw [h2] at happly; exact absurd happly (by simp)
      | some Sa =>
          rw [h2] at happly
          simp only [Option.some.injEq, Prod.mk.injEq] at happly
          exact ⟨by rw [happly.1], happly.2.symm⟩
    obtain ⟨hadd, rfl⟩ := hdecomp
    have hkeys := outputEntries_keys tx bh
    have hstored := addAll_stored _ _ _ hadd
    have habsent := addAll_absent _ _ _ hadd
    have huntouched := addAll_untouched _ _ _ hadd
    -- every created outpoint is present in S2
    have hpres : ∀ o ∈ outputOutPoints tx, S2 o ≠ none := by
      intro o ho
      rw [← hkeys] at ho
      rcases List.mem_map.mp ho with ⟨pe, hpe, hfst⟩
      rw [← hfst, hstored pe hpe]
      simp
    obtain ⟨S3, hS3⟩ := removeAll_succeeds _ S2 (outputOutPoints_nodup tx) hpres
    have hS3x := removeAll_lookup _ _ _ hS3
    constructor
    · rw [rollback_transaction, hS3]
      show addAll S3 [] = some S
      simp only [addAll, Option.some.injEq]
      funext x
      rw [hS3x x]
      by_cases hx : x ∈ outputOutPoints tx
      · rw [if_pos hx]
        rw [← hkeys] at hx
        rcases List.mem_map.mp hx with ⟨pe, hpe, hfst⟩
        rw [← hfst]
        exact (habsent pe hpe).symm
      · rw [if_neg hx]
        rw [← hkeys] at hx
        exact huntouched x hx
    · -- the first created output is already present, so addAll fails
      have h0 : ((⟨txid tx, 0⟩ : OutPoint), (⟨tx.outputs.getD 0 ⟨0, []⟩, bh,
          tx.isCoinbaseTx⟩ : UTXOEntry)) ∈ outputEntries tx bh := by
        unfold outputEntries
        refine List.mem_map.mpr ⟨0, ?_, rfl⟩
        rcases houts : tx.outputs with _ | ⟨o1, orest⟩
        · exact absurd houts hout
        · simp [List.mem_range]
      have hfirst := hstored _ h0
      have hlen : ∃ m, tx.outputs.length = m + 1 := by
        rcases houts : tx.outputs with _ | ⟨o1, orest⟩
        · exact absurd houts hout
        · exact ⟨orest.length, by simp⟩
      obtain ⟨m, hm⟩ := hlen
      have hfail : addAll S2 (outputEntries tx bh) = none := by
        unfold outputEntries
        rw [hm, List.range_succ_eq_map, List.map_cons]
        simp only [addAll, utxoAdd]
        rw [hfirst]
      rw [apply_transaction, if_pos hcb, hfail]
  · -- non-coinbase
    rw [apply_transaction, if_neg hcb] at happly
    cases hcol : collectInputs S bh tx.inputs with
    | none => rw [hcol] at happly; exact absurd happly (by simp)
    | some undo0 =>
        rw [hcol] at happly
        simp only [] at happly
        by_cases hsum : (tx.outputs.map TxOutput.value).sum ≤
            (undo0.map (fun pe => pe.2.output.value)).sum
        swap
        · rw [if_neg hsum] at happly
          exact absurd happly (by simp)
        rw [if_pos hsum] at happly
        cases hrem : removeAll S (tx.inputs.map (fun i => i.prev)) with
        | none => rw [hrem] at happly; exact absurd happly (by simp)
        | some S1 =>
            rw [hrem] at happly
            simp only [] at happly
            cases hadd : addAll S1 (outputEntries tx bh) with
            | none => rw [hadd] at happly; exact absurd happly (by simp)
            | some Sa =>
                rw [hadd] at happly
                simp only [Option.some.injEq, Prod.mk.injEq] at happly
                have hadd2 : addAll S1 (outputEntries tx bh) = some S2 := by
                  rw [← happly.1]; exact hadd
                have hcol2 : collectInputs S bh tx.inputs = some undo := by
                  rw [← happly.2]; exact hcol
                obtain ⟨hukeys, hustored⟩ := collectInputs_spec _ _ _ _ hcol2
                have hkeys := outputEntries_keys tx bh
                have hS1x := removeAll_lookup _ _ _ hrem
                have hinsnodup := removeAll_nodup _ _ _ hrem
                have hstored := addAll_stored _ _ _ hadd2
                have habsent := addAll_absent _ _ _ hadd2
                have huntouched := addAll_untouched _ _ _ hadd2
                -- input outpoints and created outpoints are disjoint
                have hdisj2 : ∀ x ∈ tx.inputs.map (fun i => i.prev),
                    x ∉ outputOutPoints tx := by
                  intro x hx
                  rcases List.mem_map.mp hx with ⟨i, hi, hix⟩
                  exact hix ▸ hdisj i hi
                -- created outpoints are present in S2
                have hpres : ∀ o ∈ outputOutPoints tx, S2 o ≠ none := by
                  intro o ho
                  rw [← hkeys] at ho
                  rcases List.mem_map.mp ho with ⟨pe, hpe, hfst⟩
                  rw [← hfst, hstored pe hpe]
                  simp
                obtain ⟨S3, hS3⟩ :=
                  removeAll_succeeds _ S2 (outputOutPoints_nodup tx) hpres
                have hS3x := removeAll_lookup _ _ _ hS3
                -- the undo keys are absent from S3, so reinsertion succeeds
                have hundoabs : ∀ pe ∈ undo, S3 pe.1 = none := by
                  intro pe hpe
                  have hpe1 : pe.1 ∈ tx.inputs.map (fun i => i.prev) := by
                    rw [← hukeys]
                    exact List.mem_map_of_mem Prod.fst hpe
                  have hnotout : pe.1 ∉ outputOutPoints tx := hdisj2 _ hpe1
                  rw [hS3x pe.1, if_neg hnotout]
                  rw [huntouched pe.1 (hkeys ▸ hnotout)]
                  rw [hS1x pe.1, if_pos hpe1]
                have hundonodup : (undo.map Prod.fst).Nodup := by
                  rw [hukeys]
                  exact hinsnodup
                obtain ⟨S4, hS4⟩ := addAll_succeeds undo S3 hundonodup hundoabs
                have hS4stored := addAll_stored _ _ _ hS4
                have hS4untouched := addAll_untouched _ _ _ hS4
                constructor
                · rw [rollback_transaction, hS3]
                  show addAll S3 undo = some S
                  rw [hS4]
                  congr 1
                  funext x
                  by_cases hxin : x ∈ tx.inputs.map (fun i => i.prev)
                  · -- a spent outpoint: restored from the undo log
                    have hxu : x ∈ undo.map Prod.fst := by rw [hukeys]; exact hxin
                    rcases List.mem_map.mp hxu with ⟨pe, hpe, hfst⟩
                    rw [← hfst, hS4stored pe hpe]
                    exact (hustored pe hpe).symm
                  · have hxu : x ∉ undo.map Prod.fst := by rw [hukeys]; exact hxin
                    rw [hS4untouched x hxu, hS3x x]
                    by_cases hxo : x ∈ outputOutPoints tx
                    · -- a created outpoint: was absent before apply
                      rw [if_pos hxo]
                      rw [← hkeys] at hxo
                      rcases List.mem_map.mp hxo with ⟨pe, hpe, hfst⟩
                      have habs1 := habsent pe hpe
                      rw [hfst] at habs1
                      have h5 := hS1x x
                      rw [if_neg hxin] at h5
                      exact (h5.symm.trans habs1).symm
                    · rw [if_neg hxo]
                      rw [huntouched x (hkeys ▸ hxo), hS1x x, if_neg hxin]
                · -- second application fails at the first input lookup
                  rw [apply_transaction, if_neg hcb]
                  cases hins : tx.inputs with
                  | nil => exact absurd hins hin
                  | cons i0 irest =>
                      have hi0 : i0.prev ∈ tx.inputs.map (fun i => i.prev) := by
                        rw [hins]; simp
                      have hgone : S2 i0.prev = none := by
                        rw [huntouched i0.prev (hkeys ▸ hdisj2 _ hi0)]
                        rw [hS1x i0.prev, if_pos hi0]
                      simp only [collectInputs, hins, hgone]

/-- Concrete previous outpoint for the C3 witness. -/
def c3prev : OutPoint := ⟨List.replicate 32 1, 0⟩

/-- Concrete stored entry for the C3 witness. -/
def c3entry : UTXOEntry := ⟨⟨100, []⟩, 0, false⟩

/-- Concrete initial UTXO set for the C3 witness: one spendable entry. -/
def c3S0 : UTXOSet := fun x => if x = c3prev then some c3entry else none

/-- Concrete transaction for the C3 witness: one input spending `c3prev`, one
output of value 50. -/
def c3tx : Transaction := ⟨2, [⟨c3prev, [], 0xffffffff⟩], [⟨50, []⟩], 0⟩

/-- The UTXO set after applying the C3 witness transaction at height 5. -/
def c3S2 : UTXOSet := fun x =>
  if x = (⟨txid c3tx, 0⟩ : OutPoint) then
    some ⟨⟨50, []⟩, 5, c3tx.isCoinbaseTx⟩
  else if x = c3prev then none
  else c3S0 x

set_option maxRecDepth 1000000 in
/-- C3 (witness): the apply/rollback statement discharged at the concrete
one-input one-output transaction. -/
theorem utxo_apply_rollback_exact_witness :
    txWellFormed c3tx ∧
      apply_transaction c3S0 c3tx 5 = some (c3S2, [(c3prev, c3entry)]) ∧
      (rollback_transaction c3S2 c3tx [(c3prev, c3entry)] = some c3S0 ∧
        apply_transaction c3S2 c3tx 5 = none) :=
  ⟨by unfold txWellFormed; decide, rfl,
    utxo_apply_rollback_exact c3S0 c3tx 5 c3S2 [(c3prev, c3entry)]
      (by unfold txWellFormed; decide) rfl⟩

/-! ## Hybrid consensus engine (`hybrid_consensus.cpp`)

Validators and stakes live in ordered `std::map`s, modeled as association
lists in map iteration order. `double` arithmetic is modeled with exact
rationals; the claims settled here (determinism, seed derivation, state
updates) do not depend on floating-point rounding. -/

/-- Models `Validator` (`hybrid_consensus.hpp`): `reputation_score` is a
`uint32_t` whose declaration comments it as 0-100. -/
structure Validator where
  validator_id : Bytes
  stake_amount : Nat
  last_block_time : Nat
  reputation_score : Nat
  is_active : Bool
  public_key : Bytes
  total_blocks_created : Nat
  missed_slots : Nat
deriving DecidableEq

/-- Models `StakeEntry` (`hybrid_consensus.hpp`). -/
structure StakeEntry where
  validator_id : Bytes
  amount : Nat
  lock_height : Nat
  is_locked : Bool
deriving DecidableEq

/-- Models `ConsensusState` (`hybrid_consensus.hpp`); the `upcoming_slots`
cache and the `double` weight-ratio field do not enter the settled
operations. -/
structure ConsensusState where
  current_height : Nat
  best_block_hash : Bytes
  total_chain_work : Nat
  current_difficulty : Nat
  validators : List (Bytes × Validator)
  stakes : List (Bytes × StakeEntry)
  total_stake : Nat
  min_stake_amount : Nat
  stake_maturity_blocks : Nat
  pos_activation_height : Nat
deriving DecidableEq

/-- `std::map` subscript assignment: replace the value when the key is
present, insert otherwise. -/
def updateAssoc {α : Type} (m : List (Bytes × α)) (k : Bytes) (v : α) :
    List (Bytes × α) :=
  match m with
  | [] => [(k, v)]
  | (k2, v2) :: rest =>
      if k2 = k then (k, v) :: rest else (k2, v2) :: updateAssoc rest k v

/-- Models `HybridConsensusEngine::penalize_validator`. The reputation
subtraction is `uint32_t` arithmetic: `std::max(0u, score - penalty)` wraps
below zero instead of clamping, because `max` with `0u` is the identity on
unsigned values. -/
def penalize_validator (s : ConsensusState) (validator_id : Bytes)
    (penalty_points : Nat) : ConsensusState :=
  match s.validators.lookup validator_id with
  | none => s
  | some v =>
      let rep := max 0 ((v.reputation_score + w32 - penalty_points % w32) % w32)
      let v2 := { v with
        reputation_score := rep,
        missed_slots := (v.missed_slots + 1) % w32,
        is_active := if rep < 10 then false else v.is_active }
      { s with validators := updateAssoc s.validators validator_id v2 }

/-- Concrete validator for the C6 evaluation: reputation 5, active. -/
def c6validator : Validator :=
  ⟨List.replicate 32 2, 2000000, 0, 5, true, [], 0, 0⟩

/-- Concrete engine state for the C6 evaluation. -/
def c6state : ConsensusState :=
  ⟨0, zeroHash32, 0, 0x1d00ffff, [(List.replicate 32 2, c6validator)],
   [(List.replicate 32 2, ⟨List.replicate 32 2, 2000000, 100, true⟩)], 2000000,
   1000000, 100, 1000⟩

/-- C6: `penalize_validator` with penalty 10 on a validator with reputation 5
wraps the unsigned subtraction to `2 ^ 32 - 5 = 4294967291` instead of
clamping at 0, so the reputation leaves [0, 100] and the validator stays
active although the claimed result 0 is under the deactivation threshold 10
(the missed-slot counter does increment). -/
theorem penalize_validator_reputation_underflow :
    ((penalize_validator c6state (List.replicate 32 2) 10).validators.lookup
        (List.replicate 32 2)).map Validator.reputation_score = some 4294967291 ∧
      ((penalize_validator c6state (List.replicate 32 2) 10).validators.lookup
          (List.replicate 32 2)).map Validator.is_active = some true ∧
      ((penalize_validator c6state (List.replicate 32 2) 10).validators.lookup
          (List.replicate 32 2)).map Validator.missed_slots = some 1 := by
  decide

/-- ASCII decimal digits of a natural number (`std::to_string`), with
structural fuel. -/
def decimalAsciiGo : Nat → Nat → Bytes
  | 0, _ => []
  | fuel + 1, n =>
      if n < 10 then [48 + n] else decimalAsciiGo fuel (n / 10) ++ [48 + n % 10]

/-- The ASCII decimal representation of a natural number (`std::to_string`
applied to the slot time). -/
def decimalAscii (n : Nat) : Bytes := decimalAsciiGo (n + 1) n

/-- Models the seed construction in
`HybridConsensusEngine::select_validator_by_stake`: a SINGLE SHA-256 over the
ASCII decimal slot time followed by the raw previous-block-hash bytes. -/
def selectionSeedHash (slot_time : Nat) (previous_block_hash : Bytes) : Bytes :=
  sha256 (decimalAscii slot_time ++ previous_block_hash)

/-- Models the loop reading the first 8 seed bytes into the PRNG seed
(`seed_value = (seed_value << 8) | seed_hash[i]` for i = 0..7). -/
def selectionSeedValue (slot_time : Nat) (previous_block_hash : Bytes) : Nat :=
  [0, 1, 2, 3, 4, 5, 6, 7].foldl
    (fun v i =>
      (v <<< 8) ||| (selectionSeedHash slot_time previous_block_hash).getD i 0) 0

/-- The multiplier of the mt19937_64 seeding recurrence. -/
def mtInitMult : Nat := 6364136223846793005

/-- Tail of the mt19937_64 state array:
`mt[i] = mult * (mt[i-1] xor (mt[i-1] >> 62)) + i`, modulo `2 ^ 64`. -/
def mtInitFrom : Nat → Nat → Nat → List Nat
  | _, _, 0 => []
  | prev, i, k + 1 =>
      let next := (mtInitMult * (prev ^^^ (prev >>> 62)) + i) % w64
      next :: mtInitFrom next (i + 1) k

/-- The 312-word mt19937_64 state seeded from a 64-bit value. -/
def mtInit (seed : Nat) : List Nat := (seed % w64) :: mtInitFrom (seed % w64) 1 311

/-- The first twisted word of mt19937_64, combining `mt[0]`, `mt[1]` and
`mt[156]`. -/
def mtTwistFirst (mt : List Nat) : Nat :=
  let x := (mt.getD 0 0 &&& 0xFFFFFFFF80000000) ||| (mt.getD 1 0 &&& 0x7FFFFFFF)
  let xA := (x >>> 1) ^^^ (if x % 2 = 1 then 0xB5026F5AA96619E9 else 0)
  mt.getD 156 0 ^^^ xA

/-- mt19937_64 output tempering. -/
def mtTemper (x0 : Nat) : Nat :=
  let x1 := x0 ^^^ ((x0 >>> 29) &&& 0x5555555555555555)
  let x2 := x1 ^^^ ((x1 <<< 17) &&& 0x71D67FFFEDA60000)
  let x3 := x2 ^^^ ((x2 <<< 37) &&& 0xFFF7EEE000000000)
  x3 ^^^ (x3 >>> 43)

/-- The first output of a freshly seeded `std::mt19937_64`. -/
def mtFirstOutput (seed : Nat) : Nat := mtTemper (mtTwistFirst (mtInit seed))

/-- Models `std::uniform_real_distribution<double>(0, 1)` on the seeded
engine: one 64-bit draw scaled into [0, 1) (libstdc++ generate_canonical),
as an exact rational. -/
def uniformDraw (seed : Nat) : ℚ := (mtFirstOutput seed : ℚ) / ((w64 : Nat) : ℚ)

/-- Models `HybridConsensusEngine::is_validator_eligible`. -/
def is_validator_eligible (s : ConsensusState) (validator_id : Bytes)
    (slot_time : Nat) : Bool :=
  match s.validators.lookup validator_id with
  | none => false
  | some v =>
      if !v.is_active then false
      else
        match s.stakes.lookup validator_id with
        | none => false
        | some st =>
            if st.is_locked then false
            else if v.last_block_time > 0 ∧ slot_time < v.last_block_time + 30 then
              false
            else true

/-- Models `HybridConsensusEngine::calculate_validator_selection_weight`,
with exact rationals in place of `double`. -/
def calculate_validator_selection_weight (s : ConsensusState) (v : Validator)
    (slot_time : Nat) : ℚ :=
  let stake_weight : ℚ := (v.stake_amount : ℚ) / (s.total_stake : ℚ)
  let reputation_factor : ℚ := 1 / 2 + (v.reputation_score : ℚ) / 100
  let time_factor : ℚ :=
    if v.last_block_time > 0 then
      min 2 (1 + (((slot_time - v.last_block_time : Nat) : ℚ) / 3600))
    else 1
  let activity_factor : ℚ := max (1 / 10) (1 - (v.missed_slots : ℚ) / 10)
  stake_weight * reputation_factor * time_factor * activity_factor

/-- The accumulation loop of the weighted selection: return the first id
whose running weight sum reaches the drawn value, falling back to the given
id when none does. -/
def selectLoop (random_value : ℚ) : List (Bytes × ℚ) → ℚ → Bytes → Bytes
  | [], _, fallback => fallback
  | (id, w) :: rest, acc, fallback =>
      if random_value ≤ acc + w then id else selectLoop random_value rest (acc + w) fallback

/-- Models `HybridConsensusEngine::select_validator_by_stake`: deterministic
weighted choice over the active, eligible validators, seeded from the slot
time and previous block hash; the zero hash signals that no validator is
available. -/
def select_validator_by_stake (s : ConsensusState) (slot_time : Nat)
    (previous_block_hash : Bytes) : Bytes :=
  if s.validators = [] ∨ s.total_stake = 0 then zeroHash32
  else
    let validator_weights :=
      (s.validators.filter
        (fun p => p.2.is_active && is_validator_eligible s p.1 slot_time)).map
        (fun p => (p.1, calculate_validator_selection_weight s p.2 slot_time))
    let total_weight : ℚ := (validator_weights.map Prod.snd).sum
    if validator_weights = [] ∨ total_weight ≤ 0 then zeroHash32
    else
      let random_value :=
        uniformDraw (selectionSeedValue slot_time previous_block_hash) * total_weight
      selectLoop random_value validator_weights 0
        ((validator_weights.map Prod.fst).getLastD zeroHash32)

/-- C7: validator selection is deterministic: two engine states that agree on
the validator map, the stake map and the total stake yield the same selected
id for the same slot time and previous block hash, whatever their other
fields (the selection never consults the engine's clock-seeded member
PRNG). -/
theorem select_validator_deterministic (s1 s2 : ConsensusState)
    (slot_time : Nat) (previous_block_hash : Bytes)
    (hv : s1.validators = s2.validators) (hs : s1.stakes = s2.stakes)
    (ht : s1.total_stake = s2.total_stake) :
    select_validator_by_stake s1 slot_time previous_block_hash =
      select_validator_by_stake s2 slot_time previous_block_hash := by
  unfold select_validator_by_stake is_validator_eligible
    calculate_validator_selection_weight
  rw [hv, hs, ht]

/-- Concrete base state for the C7 witness. -/
def c7base : ConsensusState :=
  ⟨0, zeroHash32, 0, 0x1d00ffff, [], [], 0, 1000000, 100, 1000⟩

/-- A state agreeing with `c7base` on validators, stakes and total stake but
differing elsewhere. -/
def c7other : ConsensusState :=
  { c7base with
    current_height := 7, best_block_hash := List.replicate 32 9,
    total_chain_work := 42, current_difficulty := 0x207fffff }

/-- C7 (witness): the determinism statement discharged at two concrete
states that differ in height, tip hash, chain work and difficulty. -/
theorem select_validator_deterministic_witness :
    (c7base.validators = c7other.validators ∧ c7base.stakes = c7other.stakes ∧
        c7base.total_stake = c7other.total_stake) ∧
      select_validator_by_stake c7base 1000 zeroHash32 =
        select_validator_by_stake c7other 1000 zeroHash32 :=
  ⟨⟨rfl, rfl, rfl⟩,
    select_validator_deterministic c7base c7other 1000 zeroHash32 rfl rfl rfl⟩

/-- The 8-byte little-endian encoding of a 64-bit value (the claim's
`encode_u64_le`). -/
def le64 (n : Nat) : Bytes := leBytes 8 n

set_option maxRecDepth 100000 in
/-- C8 (counterexample): at slot time 0 with the all-zero previous hash, the
seed the code derives — a SINGLE SHA-256 of the ASCII string for the slot
time followed by the hash bytes — differs from the claimed
`double_sha256(encode_u64_le(slot_time) ∥ previous_block_hash)`. -/
theorem selection_seed_not_double_sha256 :
    selectionSeedHash 0 zeroHash32 ≠ double_sha256 (le64 0 ++ zeroHash32) := by
  decide

/-- Spec-side reading of the amended claim: the big-endian integer value of
the first 8 bytes of a digest, written positionally. -/
def beValue64 (hash : Bytes) : Nat :=
  256 ^ 7 * hash.getD 0 0 + 256 ^ 6 * hash.getD 1 0 + 256 ^ 5 * hash.getD 2 0 +
    256 ^ 4 * hash.getD 3 0 + 256 ^ 3 * hash.getD 4 0 + 256 ^ 2 * hash.getD 5 0 +
    256 * hash.getD 6 0 + hash.getD 7 0

/-- C8 (amended): the selection seed is the single SHA-256 of the ASCII
decimal slot time concatenated with the previous block hash (not a
double SHA-256 of an 8-byte little-endian encoding), and the PRNG is seeded
with the first 8 bytes of that digest read as a big-endian integer. -/
theorem selection_seed_value_big_endian (slot_time : Nat)
    (previous_block_hash : Bytes) :
    selectionSeedValue slot_time previous_block_hash =
      beValue64 (sha256 (decimalAscii slot_time ++ previous_block_hash)) := by
  have g := getD_lt_256 (selectionSeedHash slot_time previous_block_hash)
    (sha256_bytes_lt _)
  simp only [selectionSeedValue, List.foldl_cons, List.foldl_nil]
  rw [show ((0 : Nat) <<< 8) |||
        (selectionSeedHash slot_time previous_block_hash).getD 0 0 =
        256 * 0 + (selectionSeedHash slot_time previous_block_hash).getD 0 0 from
      shiftLeft_or_byte 0 _ (g 0)]
  rw [shiftLeft_or_byte _ _ (g 1), shiftLeft_or_byte _ _ (g 2),
      shiftLeft_or_byte _ _ (g 3), shiftLeft_or_byte _ _ (g 4),
      shiftLeft_or_byte _ _ (g 5), shiftLeft_or_byte _ _ (g 6),
      shiftLeft_or_byte _ _ (g 7)]
  simp only [beValue64, selectionSeedHash]
  ring

/-- Models `HybridConsensusEngine::add_validator`: reject only
under-minimum stakes; an already-registered id is silently overwritten and
the FULL new stake amount is added to `total_stake` (a `uint64_t`). -/
def add_validator (s : ConsensusState) (validator_id public_key : Bytes)
    (stake_amount : Nat) : Bool × ConsensusState :=
  if stake_amount < s.min_stake_amount then (false, s)
  else
    let v : Validator := ⟨validator_id, stake_amount, 0, 100, true, public_key, 0, 0⟩
    let st : StakeEntry :=
      ⟨validator_id, stake_amount, (s.current_height + s.stake_maturity_blocks) % w32,
        true⟩
    (true,
      { s with
        validators := updateAssoc s.validators validator_id v,
        stakes := updateAssoc s.stakes validator_id st,
        total_stake := (s.total_stake + stake_amount) % w64 })

/-- The sum of all stored stake-entry amounts. -/
def sumStakes (stakes : List (Bytes × StakeEntry)) : Nat :=
  (stakes.map (fun p => p.2.amount)).sum

/-- Subscript assignment stores the assigned value under the key. -/
theorem updateAssoc_lookup_self {α : Type} :
    ∀ (m : List (Bytes × α)) (k : Bytes) (v : α),
      (updateAssoc m k v).lookup k = some v
  | [], k, v => by simp [updateAssoc, List.lookup]
  | (k2, v2) :: rest, k, v => by
      by_cases h : k2 = k
      · simp [updateAssoc, if_pos h, List.lookup]
      · simp only [updateAssoc, if_neg h, List.lookup]
        rw [show (k == k2) = false from beq_eq_false_iff_ne.mpr (Ne.symm h)]
        exact updateAssoc_lookup_self rest k v

/-- Replacing the entry under a present key exchanges exactly the old amount
for the new one in the stored stake sum. -/
theorem updateAssoc_sumStakes :
    ∀ (m : List (Bytes × StakeEntry)) (k : Bytes) (st old : StakeEntry),
      m.lookup k = some old → (m.map Prod.fst).Nodup →
      sumStakes (updateAssoc m k st) + old.amount = sumStakes m + st.amount
  | [], k, st, old, hold, _ => by simp [List.lookup] at hold
  | (k2, v2) :: rest, k, st, old, hold, hnd => by
      rw [List.map_cons] at hnd
      rcases List.nodup_cons.mp hnd with ⟨hk2, hndr⟩
      by_cases h : k2 = k
      · subst h
        rw [List.lookup] at hold
        rw [show (k2 == k2) = true from by simp] at hold
        simp only [Option.some.injEq] at hold
        subst hold
        simp [updateAssoc, sumStakes]
        omega
      · rw [List.lookup] at hold
        rw [show (k == k2) = false from beq_eq_false_iff_ne.mpr (Ne.symm h)] at hold
        simp only [] at hold
        have ih := updateAssoc_sumStakes rest k st old hold hndr
        simp only [updateAssoc, if_neg h, sumStakes, List.map_cons, List.sum_cons]
        simp only [sumStakes] at ih
        omega

/-- C10: calling `add_validator` with an already-registered id and a stake at
or above the minimum succeeds, silently replaces the validator (reputation
100, active, fresh keys) and the stake entry (new unlock height, locked), and
adds the FULL new stake to `total_stake` without subtracting the replaced
entry's amount — so the new `total_stake` exceeds the stored stake sum by the
old amount. -/
theorem add_validator_overwrites_and_inflates (s : ConsensusState)
    (validator_id public_key : Bytes) (stake_amount : Nat)
    (oldv : Validator) (oldst : StakeEntry)
    (hmin : ¬ stake_amount < s.min_stake_amount)
    (hv : s.validators.lookup validator_id = some oldv)
    (hst : s.stakes.lookup validator_id = some oldst)
    (hnodup : (s.stakes.map Prod.fst).Nodup)
    (hnoovf : s.total_stake + stake_amount < w64) :
    (add_validator s validator_id public_key stake_amount).1 = true ∧
      (add_validator s validator_id public_key stake_amount).2.validators.lookup
          validator_id =
        some ⟨validator_id, stake_amount, 0, 100, true, public_key, 0, 0⟩ ∧
      (add_validator s validator_id public_key stake_amount).2.stakes.lookup
          validator_id =
        some ⟨validator_id, stake_amount,
          (s.current_height + s.stake_maturity_blocks) % w32, true⟩ ∧
      (add_validator s validator_id public_key stake_amount).2.total_stake =
        s.total_stake + stake_amount ∧
      sumStakes (add_validator s validator_id public_key stake_amount).2.stakes +
          oldst.amount =
        sumStakes s.stakes + stake_amount := by
  unfold add_validator
  rw [if_neg hmin]
  refine ⟨rfl, ?_, ?_, ?_, ?_⟩
  · exact updateAssoc_lookup_self _ _ _
  · exact updateAssoc_lookup_self _ _ _
  · exact Nat.mod_eq_of_lt hnoovf
  · exact updateAssoc_sumStakes s.stakes validator_id _ oldst hst hnodup

/-- Concrete state for the C10 witness: one validator with stake 1500000
already registered, total stake in balance with the stored entries. -/
def c10state : ConsensusState :=
  ⟨10, zeroHash32, 0, 0x1d00ffff,
   [(List.replicate 32 3, ⟨List.replicate 32 3, 1500000, 0, 80, true, [], 0, 0⟩)],
   [(List.replicate 32 3, ⟨List.replicate 32 3, 1500000, 110, false⟩)], 1500000,
   1000000, 100, 1000⟩

/-- C10 (witness): re-registration discharged at the concrete state, with a
new stake of 2000000. -/
theorem add_validator_overwrites_and_inflates_witness :
    (¬ (2000000 : Nat) < c10state.min_stake_amount ∧
        c10state.validators.lookup (List.replicate 32 3) =
          some ⟨List.replicate 32 3, 1500000, 0, 80, true, [], 0, 0⟩ ∧
        c10state.stakes.lookup (List.replicate 32 3) =
          some ⟨List.replicate 32 3, 1500000, 110, false⟩ ∧
        (c10state.stakes.map Prod.fst).Nodup ∧
        c10state.total_stake + 2000000 < w64) ∧
      ((add_validator c10state (List.replicate 32 3) [] 2000000).1 = true ∧
        (add_validator c10state (List.replicate 32 3) [] 2000000).2.validators.lookup
            (List.replicate 32 3) =
          some ⟨List.replicate 32 3, 2000000, 0, 100, true, [], 0, 0⟩ ∧
        (add_validator c10state (List.replicate 32 3) [] 2000000).2.stakes.lookup
            (List.replicate 32 3) =
          some ⟨List.replicate 32 3, 2000000,
            (c10state.current_height + c10state.stake_maturity_blocks) % w32, true⟩ ∧
        (add_validator c10state (List.replicate 32 3) [] 2000000).2.total_stake =
          c10state.total_stake + 2000000 ∧
        sumStakes (add_validator c10state (List.replicate 32 3) [] 2000000).2.stakes +
            1500000 =
          sumStakes c10state.stakes + 2000000) :=
  ⟨⟨by decide, by decide, by decide, by decide, by decide⟩,
    add_validator_overwrites_and_inflates c10state (List.replicate 32 3) [] 2000000
      ⟨List.replicate 32 3, 1500000, 0, 80, true, [], 0, 0⟩
      ⟨List.replicate 32 3, 1500000, 110, false⟩
      (by decide) (by decide) (by decide) (by decide) (by decide)⟩

end Spec2Proof
